import Mathlib

/-!
Verification of the numerical core of the Smoke fluid simulation
(src/Smoke/fluids.c): a real-time stable-fluids solver on a periodic
N x N grid with a semi-Lagrangian advection step, a spectral
diffusion-projection step, a force/density decay step and a step
orchestrator.

Modelling conventions.
The C type fftw_real (double) is modelled by the real numbers.  The flat
C arrays are modelled as functions from flat indices to the reals; the
simulation addresses real-space data at index i + n*j and frequency-space
(transform-padded) data at index i + (n+2)*j, exactly as the source does.
The C integer cast (int)x truncates toward zero, which on nonnegative
arguments is the floor; the C remainder operator on int is the truncated
remainder, modelled by Int.tmod.  Loops whose iterations write pairwise
distinct cells and read only buffers that the loop does not write are
modelled either pointwise or as left folds of pointwise updates over the
list of visited cells, in the visiting order of the source.

The forward and inverse Fourier transforms are provided by the external
FFTW library (out of scope per the specification, which treats them as a
trusted real-to-complex / complex-to-real transform pair).  They are
modelled from the spec by the mathematical discrete Fourier transform in
the packed half-spectrum layout that the source indexes into.
-/

namespace Smoke

/-- Grid size of the simulation, `const int DIM = 50` in the source. -/
def DIM : ℕ := 50

/-- Line 81-82 of fluids.c:
`int clamp(float x) { return ((x)>=0.0?((int)(x)):(-((int)(1-(x))))); }`.
The cast `(int)` truncates toward zero; both `x` (when `x >= 0`) and
`1 - x` (when `x < 0`) are nonnegative, so both casts are floors. -/
noncomputable def clamp (x : ℝ) : ℤ := if 0 ≤ x then ⌊x⌋ else -⌊1 - x⌋

/-- The index wrap `(n+(i0%n))%n` from lines 143/146/202/206 of fluids.c,
with `%` the truncated remainder of C int arithmetic. -/
def wrapZ (n : ℕ) (i : ℤ) : ℤ := ((n : ℤ) + i.tmod n).tmod n

/-- The wrapped index as a natural number (the value used to address the
flat arrays). -/
def wrapIdx (n : ℕ) (i : ℤ) : ℕ := (wrapZ n i).toNat

/-- Truncated remainder negates with its dividend. -/
lemma tmod_neg_dividend (a b : ℤ) : (-a).tmod b = -(a.tmod b) := by
  have h1 := Int.tdiv_add_tmod (-a) b
  have h2 := Int.tdiv_add_tmod a b
  rw [Int.neg_tdiv, mul_neg] at h1
  omega

/-- The truncated remainder by a positive modulus lies strictly between
`-b` and `b`. -/
lemma tmod_bounds (a : ℤ) {b : ℤ} (hb : 0 < b) : -b < a.tmod b ∧ a.tmod b < b := by
  rcases le_or_lt 0 a with ha | ha
  · have h0 : 0 ≤ a.tmod b := Int.tmod_nonneg b ha
    have h1 : a.tmod b < b := Int.tmod_lt_of_pos a hb
    omega
  · have h0 : 0 ≤ (-a).tmod b := Int.tmod_nonneg b (by omega)
    have h1 : (-a).tmod b < b := Int.tmod_lt_of_pos (-a) hb
    have h2 : (-a).tmod b = -(a.tmod b) := tmod_neg_dividend a b
    omega

/-- The double truncated wrap of the source equals the Euclidean
remainder. -/
lemma wrapZ_eq_emod (n : ℕ) (hn : 0 < n) (i : ℤ) : wrapZ n i = i % (n : ℤ) := by
  have hnz : (0 : ℤ) < (n : ℤ) := by exact_mod_cast hn
  have hb := tmod_bounds i hnz
  have hnn : 0 ≤ (n : ℤ) + i.tmod n := by omega
  have h1 : wrapZ n i = ((n : ℤ) + i.tmod n) % (n : ℤ) := by
    unfold wrapZ
    exact Int.tmod_eq_emod hnn (by omega)
  have h2 : ((n : ℤ) + i.tmod n) % (n : ℤ) = i.tmod n % (n : ℤ) := by
    have hsw : (n : ℤ) + i.tmod n = i.tmod n + (n : ℤ) * 1 := by ring
    rw [hsw, Int.add_mul_emod_self_left]
  have h3 : i.tmod n % (n : ℤ) = i % (n : ℤ) := by
    have hd := Int.tdiv_add_tmod i (n : ℤ)
    have hm : i.tmod n = i - (n : ℤ) * i.tdiv n := by omega
    rw [hm, Int.sub_emod, Int.mul_emod_right]
    simp [Int.emod_emod_of_dvd]
  omega

lemma wrapZ_nonneg (n : ℕ) (hn : 0 < n) (i : ℤ) : 0 ≤ wrapZ n i := by
  rw [wrapZ_eq_emod n hn]
  exact Int.emod_nonneg i (by exact_mod_cast hn.ne')

lemma wrapZ_lt (n : ℕ) (hn : 0 < n) (i : ℤ) : wrapZ n i < n := by
  rw [wrapZ_eq_emod n hn]
  exact Int.emod_lt_of_pos i (by exact_mod_cast hn)

lemma wrapIdx_eq (n : ℕ) (hn : 0 < n) (i : ℤ) : wrapIdx n i = (i % (n : ℤ)).toNat := by
  unfold wrapIdx
  rw [wrapZ_eq_emod n hn]

lemma wrapIdx_lt (n : ℕ) (hn : 0 < n) (i : ℤ) : wrapIdx n i < n := by
  unfold wrapIdx
  have h1 := wrapZ_nonneg n hn i
  have h2 := wrapZ_lt n hn i
  omega

/-- Incrementing a wrapped index modulo `n` (the `(i0+1)%n` of line 144)
wraps the successor. -/
lemma wrapIdx_succ (n : ℕ) (hn : 0 < n) (i : ℤ) :
    (wrapIdx n i + 1) % n = wrapIdx n (i + 1) := by
  have hnz : ((n : ℤ)) ≠ 0 := by exact_mod_cast hn.ne'
  rw [wrapIdx_eq n hn, wrapIdx_eq n hn]
  have h0 : 0 ≤ i % (n : ℤ) := Int.emod_nonneg i hnz
  have hcast : (((i % (n : ℤ)).toNat : ℤ)) = i % (n : ℤ) := Int.toNat_of_nonneg h0
  have key : ((((i % (n : ℤ)).toNat + 1) % n : ℕ) : ℤ) = (i + 1) % (n : ℤ) := by
    push_cast [hcast]
    rw [Int.emod_add_emod]
  have h2 : 0 ≤ (i + 1) % (n : ℤ) := Int.emod_nonneg _ hnz
  have hB : ((((i + 1) % (n : ℤ)).toNat : ℤ)) = (i + 1) % (n : ℤ) := Int.toNat_of_nonneg h2
  exact_mod_cast key.trans hB.symm

/-- On nonnegative arguments `clamp` is the floor. -/
lemma clamp_of_nonneg {x : ℝ} (h : 0 ≤ x) : clamp x = ⌊x⌋ := by
  unfold clamp
  rw [if_pos h]

/-- On arguments that are not a negative integer, `clamp` is the floor. -/
lemma clamp_eq_floor {x : ℝ} (h : 0 ≤ x ∨ Int.fract x ≠ 0) : clamp x = ⌊x⌋ := by
  rcases le_or_lt 0 x with hx | hx
  · exact clamp_of_nonneg hx
  · have hf : Int.fract x ≠ 0 := h.resolve_left (by exact fun hc => absurd hx (not_lt.mpr hc))
    unfold clamp
    rw [if_neg (not_le.mpr hx)]
    have hlt : (⌊x⌋ : ℝ) < x := by
      rcases lt_or_eq_of_le (Int.floor_le x) with h1 | h1
      · exact h1
      · exact absurd (by rw [Int.fract, ← h1, Int.floor_intCast, sub_self]) hf
    have hfl : ⌊1 - x⌋ = -⌊x⌋ := by
      rw [Int.floor_eq_iff]
      constructor
      · push_cast
        have := Int.lt_floor_add_one x
        linarith
      · push_cast
        linarith
    rw [hfl, neg_neg]

/-- On a negative integer, `clamp` undershoots the floor by one: the C
expression `-((int)(1-(x)))` evaluates to `x - 1` there. -/
lemma clamp_neg_int {m : ℤ} (h : m < 0) : clamp (m : ℝ) = m - 1 := by
  unfold clamp
  have hm : ¬ (0 : ℝ) ≤ (m : ℝ) := by
    rw [not_le]
    exact_mod_cast h
  rw [if_neg hm]
  have h1 : (1 : ℝ) - (m : ℝ) = ((1 - m : ℤ) : ℝ) := by push_cast; ring
  rw [h1, Int.floor_intCast]
  omega

/-- The fractional offset `s = x0 - i0` computed by the advection loops
(lines 142/145/201/205 of fluids.c). -/
noncomputable def fracOffset (x : ℝ) : ℝ := x - (clamp x : ℝ)

lemma fracOffset_eq_fract {x : ℝ} (h : 0 ≤ x ∨ Int.fract x ≠ 0) :
    fracOffset x = Int.fract x := by
  unfold fracOffset
  rw [clamp_eq_floor h, Int.fract]

lemma fracOffset_neg_int {m : ℤ} (h : m < 0) : fracOffset (m : ℝ) = 1 := by
  unfold fracOffset
  rw [clamp_neg_int h]
  push_cast
  ring

/-- The backtraced position of cell `(i, j)`, lines 140-141 (and 198-199)
of fluids.c:
`x0 = n*(x-dt*vx0[i+n*j])-0.5;  y0 = n*(y-dt*vy0[i+n*j])-0.5;`
where `x` has been accumulated from `0.5/n` by `i` increments of `1/n`,
and likewise `y` from `0.5/n` by `j` increments of `1/n`. -/
noncomputable def tracedPos (n : ℕ) (ux uy : ℕ → ℝ) (dt : ℝ) (i j : ℕ) : ℝ × ℝ :=
  ((n : ℝ) * ((0.5 / n + i / n) - dt * ux (i + n * j)) - 0.5,
   (n : ℝ) * ((0.5 / n + j / n) - dt * uy (i + n * j)) - 0.5)

/-- The interpolation of the source loops, lines 142-148 (and 200-208) of
fluids.c: decompose each traced coordinate with `clamp`, wrap the base
index and its successor, and combine the four corners as
`(1-s)*((1-t)*src[i0,j0]+t*src[i0,j1])+s*((1-t)*src[i1,j0]+t*src[i1,j1])`. -/
noncomputable def codeInterp (n : ℕ) (src : ℕ → ℝ) (x0 y0 : ℝ) : ℝ :=
  (1 - fracOffset x0) *
      ((1 - fracOffset y0) * src (wrapIdx n (clamp x0) + n * wrapIdx n (clamp y0)) +
        fracOffset y0 * src (wrapIdx n (clamp x0) + n * ((wrapIdx n (clamp y0) + 1) % n))) +
    fracOffset x0 *
      ((1 - fracOffset y0) * src ((wrapIdx n (clamp x0) + 1) % n + n * wrapIdx n (clamp y0)) +
        fracOffset y0 * src ((wrapIdx n (clamp x0) + 1) % n + n * ((wrapIdx n (clamp y0) + 1) % n)))

/-- The value the advection loop writes into the destination at cell
`(i, j)`: the `codeInterp` of the source buffer at the backtraced
position.  In the velocity loop (lines 137-150) the tracing field and the
source are `(vx0, vy0)`; in `diffuse_matter` the tracing field is
`(vx, vy)` and the source is `rho0`. -/
noncomputable def advectCell (n : ℕ) (ux uy src : ℕ → ℝ) (dt : ℝ) (i j : ℕ) : ℝ :=
  codeInterp n src (tracedPos n ux uy dt i j).1 (tracedPos n ux uy dt i j).2

/-- The bilinear interpolation exactly as the specification words it:
weights `(1-s)(1-t), s(1-t), (1-s)t, s*t` on the four corners in reading
order (base, +x, +y, +x+y), where `(s, t)` is the fractional part of the
traced position and the base cell is its floor, wrapped modulo `n`. -/
noncomputable def specInterp (n : ℕ) (src : ℕ → ℝ) (x0 y0 : ℝ) : ℝ :=
  (1 - Int.fract x0) * (1 - Int.fract y0) *
      src ((⌊x0⌋ % (n : ℤ)).toNat + n * (⌊y0⌋ % (n : ℤ)).toNat) +
    Int.fract x0 * (1 - Int.fract y0) *
      src (((⌊x0⌋ + 1) % (n : ℤ)).toNat + n * (⌊y0⌋ % (n : ℤ)).toNat) +
    (1 - Int.fract x0) * Int.fract y0 *
      src ((⌊x0⌋ % (n : ℤ)).toNat + n * ((⌊y0⌋ + 1) % (n : ℤ)).toNat) +
    Int.fract x0 * Int.fract y0 *
      src (((⌊x0⌋ + 1) % (n : ℤ)).toNat + n * ((⌊y0⌋ + 1) % (n : ℤ)).toNat)

/-- One-dimensional step of the interpolation equivalence: the lerp the
code computes from the `clamp` decomposition agrees with the lerp formed
from floor and fractional part, in each axis. -/
lemma lerp_clamp_eq_fract (n : ℕ) (hn : 0 < n) (g : ℕ → ℝ) (x : ℝ) :
    (1 - fracOffset x) * g (wrapIdx n (clamp x)) +
        fracOffset x * g ((wrapIdx n (clamp x) + 1) % n) =
      (1 - Int.fract x) * g ((⌊x⌋ % (n : ℤ)).toNat) +
        Int.fract x * g (((⌊x⌋ + 1) % (n : ℤ)).toNat) := by
  by_cases h : 0 ≤ x ∨ Int.fract x ≠ 0
  · rw [fracOffset_eq_fract h, clamp_eq_floor h, wrapIdx_succ n hn,
      wrapIdx_eq n hn, wrapIdx_eq n hn]
  · push_neg at h
    obtain ⟨hx, hf⟩ := h
    have hfl : ((⌊x⌋ : ℝ)) = x := by
      have := Int.self_sub_floor x
      rw [hf] at this
      linarith [this]
    have hm : ⌊x⌋ < 0 := by
      by_contra hc
      push_neg at hc
      have : (0 : ℝ) ≤ (⌊x⌋ : ℝ) := by exact_mod_cast hc
      rw [hfl] at this
      exact absurd this (not_le.mpr hx)
    have hclamp : clamp x = ⌊x⌋ - 1 := by
      conv_lhs => rw [← hfl]
      exact clamp_neg_int hm
    have hofs : fracOffset x = 1 := by
      conv_lhs => rw [← hfl]
      exact fracOffset_neg_int hm
    rw [hofs, hf, hclamp, wrapIdx_succ n hn, wrapIdx_eq n hn, wrapIdx_eq n hn]
    simp

/-- The advection interpolation of the code agrees everywhere with the
bilinear interpolation as worded in the specification. -/
lemma codeInterp_eq_specInterp (n : ℕ) (hn : 0 < n) (src : ℕ → ℝ) (x0 y0 : ℝ) :
    codeInterp n src x0 y0 = specInterp n src x0 y0 := by
  have hA := lerp_clamp_eq_fract n hn
    (fun jw => src (wrapIdx n (clamp x0) + n * jw)) y0
  have hB := lerp_clamp_eq_fract n hn
    (fun jw => src ((wrapIdx n (clamp x0) + 1) % n + n * jw)) y0
  simp only at hA hB
  unfold codeInterp
  rw [hA, hB]
  have hC := lerp_clamp_eq_fract n hn
    (fun iw => (1 - Int.fract y0) * src (iw + n * (⌊y0⌋ % (n : ℤ)).toNat) +
      Int.fract y0 * src (iw + n * ((⌊y0⌋ + 1) % (n : ℤ)).toNat)) x0
  simp only at hC
  rw [hC]
  unfold specInterp
  ring

/-- The cells visited by the advection loops, outer index `i` first and
inner index `j`, both running over `0..n-1` (lines 137-138 and 195-196). -/
def cells (n : ℕ) : List (ℕ × ℕ) := (List.range n).product (List.range n)

lemma mem_cells {n i j : ℕ} : (i, j) ∈ cells n ↔ i < n ∧ j < n := by
  unfold cells
  rw [List.pair_mem_product, List.mem_range, List.mem_range]

/-- The flat destination index `i + n*j` determines the cell. -/
lemma cellKey_inj {n i j i' j' : ℕ} (hi : i < n) (hi' : i' < n)
    (h : i + n * j = i' + n * j') : i = i' ∧ j = j' := by
  have h1 : (i + n * j) % n = i := by
    rw [Nat.add_mul_mod_self_left, Nat.mod_eq_of_lt hi]
  have h2 : (i' + n * j') % n = i' := by
    rw [Nat.add_mul_mod_self_left, Nat.mod_eq_of_lt hi']
  have hpos : 0 < n := by omega
  have h3 : (i + n * j) / n = j := by
    rw [Nat.add_mul_div_left _ _ hpos, Nat.div_eq_of_lt hi, Nat.zero_add]
  have h4 : (i' + n * j') / n = j' := by
    rw [Nat.add_mul_div_left _ _ hpos, Nat.div_eq_of_lt hi', Nat.zero_add]
  have h5 : i = i' := by rw [← h1, h, h2]
  have h6 : j = j' := by
    have h7 : (i + n * j) / n = (i' + n * j') / n := by rw [h]
    rw [h3, h4] at h7
    exact h7
  exact ⟨h5, h6⟩

lemma cells_keys_nodup (n : ℕ) : ((cells n).map fun c => c.1 + n * c.2).Nodup := by
  apply List.Nodup.map_on
  · intro c hc c' hc' hk
    obtain ⟨a, b⟩ := c
    obtain ⟨a', b'⟩ := c'
    obtain ⟨hc1, hc2⟩ := mem_cells.mp hc
    obtain ⟨hc1', hc2'⟩ := mem_cells.mp hc'
    obtain ⟨e1, e2⟩ := cellKey_inj hc1 hc1' hk
    simp only [Prod.mk.injEq]
    exact ⟨e1, e2⟩
  · exact List.Nodup.product (List.nodup_range n) (List.nodup_range n)

/-- Lines 190-210 of fluids.c, `diffuse_matter`: the loop over all cells
writes `rho[i+n*j]` with the interpolation of `rho0` at the position
backtraced along `(vx, vy)`.  The state is the pair of the written buffer
`rho` and the read-only buffer `rho0`. -/
noncomputable def diffuse_matter (n : ℕ) (ux uy : ℕ → ℝ) (dt : ℝ)
    (st : (ℕ → ℝ) × (ℕ → ℝ)) : (ℕ → ℝ) × (ℕ → ℝ) :=
  (cells n).foldl
    (fun s c =>
      (Function.update s.1 (c.1 + n * c.2) (advectCell n ux uy s.2 dt c.1 c.2), s.2))
    st

/-- Lines 137-150 of fluids.c, the velocity self-advection loop inside
`solve`: for every cell one traced position is computed from the snapshot
`(vx0, vy0)` and both `vx[i+n*j]` and `vy[i+n*j]` are written with the
interpolation of `vx0` resp. `vy0` there.  The state is the pair of the
written pair `(vx, vy)` and the read-only pair `(vx0, vy0)`. -/
noncomputable def solveAdvect (n : ℕ) (dt : ℝ)
    (st : ((ℕ → ℝ) × (ℕ → ℝ)) × ((ℕ → ℝ) × (ℕ → ℝ))) :
    ((ℕ → ℝ) × (ℕ → ℝ)) × ((ℕ → ℝ) × (ℕ → ℝ)) :=
  (cells n).foldl
    (fun s c =>
      ((Function.update s.1.1 (c.1 + n * c.2) (advectCell n s.2.1 s.2.2 s.2.1 dt c.1 c.2),
        Function.update s.1.2 (c.1 + n * c.2) (advectCell n s.2.1 s.2.2 s.2.2 dt c.1 c.2)),
       s.2)) st

/-- A fold whose step writes only the first component and passes the
second through leaves the second component unchanged. -/
lemma foldl_ro_snd {α β γ : Type} (F : β → γ → α → α) (l : List γ) :
    ∀ st : α × β, (l.foldl (fun s c => (F s.2 c s.1, s.2)) st).2 = st.2 := by
  induction l with
  | nil => intro st; rfl
  | cons hd tl ih => intro st; exact ih _

/-- A fold of updates at keys a given index avoids does not change the
buffer at that index. -/
lemma foldl_update_not_mem {γ : Type} (key : γ → ℕ) (v : γ → ℝ) (l : List γ)
    (p : ℕ) (hp : p ∉ l.map key) :
    ∀ w : ℕ → ℝ, l.foldl (fun a c => Function.update a (key c) (v c)) w p = w p := by
  induction l with
  | nil => intro w; rfl
  | cons hd tl ih =>
    intro w
    rw [List.map_cons, List.mem_cons] at hp
    push_neg at hp
    rw [List.foldl_cons, ih hp.2, Function.update_noteq hp.1]

/-- A fold of updates at pairwise distinct keys, whose written values do
not depend on the buffer being written, yields the value of the visited
key. -/
lemma foldl_update_mem {γ : Type} (key : γ → ℕ) (v : γ → ℝ) (l : List γ)
    (hnd : (l.map key).Nodup) (c : γ) (hc : c ∈ l) :
    ∀ w : ℕ → ℝ, l.foldl (fun a c => Function.update a (key c) (v c)) w (key c) = v c := by
  induction l with
  | nil => cases hc
  | cons hd tl ih =>
    intro w
    rw [List.map_cons, List.nodup_cons] at hnd
    rcases List.mem_cons.mp hc with he | ht
    · subst he
      rw [List.foldl_cons, foldl_update_not_mem key v tl _ hnd.1,
        Function.update_same]
    · exact ih hnd.2 ht _

/-- The `diffuse_matter` fold splits into a pure write fold on the first
component; the second component rides along unchanged and every written
value reads the initial second component. -/
lemma diffuse_fold_split (n : ℕ) (ux uy : ℕ → ℝ) (dt : ℝ) (l : List (ℕ × ℕ)) :
    ∀ st : (ℕ → ℝ) × (ℕ → ℝ),
      l.foldl
          (fun s c =>
            (Function.update s.1 (c.1 + n * c.2) (advectCell n ux uy s.2 dt c.1 c.2), s.2))
          st =
        (l.foldl
          (fun a c =>
            Function.update a (c.1 + n * c.2) (advectCell n ux uy st.2 dt c.1 c.2))
          st.1, st.2) := by
  induction l with
  | nil => intro st; rfl
  | cons hd tl ih => intro st; exact ih _

/-- The `solveAdvect` fold splits into two pure write folds on the written
velocity pair; the snapshot pair rides along unchanged and every written
value reads the initial snapshot. -/
lemma solve_fold_split (n : ℕ) (dt : ℝ) (l : List (ℕ × ℕ)) :
    ∀ st : ((ℕ → ℝ) × (ℕ → ℝ)) × ((ℕ → ℝ) × (ℕ → ℝ)),
      l.foldl
          (fun s c =>
            ((Function.update s.1.1 (c.1 + n * c.2)
                (advectCell n s.2.1 s.2.2 s.2.1 dt c.1 c.2),
              Function.update s.1.2 (c.1 + n * c.2)
                (advectCell n s.2.1 s.2.2 s.2.2 dt c.1 c.2)), s.2))
          st =
        ((l.foldl
            (fun a c =>
              Function.update a (c.1 + n * c.2)
                (advectCell n st.2.1 st.2.2 st.2.1 dt c.1 c.2))
            st.1.1,
          l.foldl
            (fun a c =>
              Function.update a (c.1 + n * c.2)
                (advectCell n st.2.1 st.2.2 st.2.2 dt c.1 c.2))
            st.1.2), st.2) := by
  induction l with
  | nil => intro st; rfl
  | cons hd tl ih => intro st; exact ih _

/-- The destination value of `diffuse_matter` at cell `(i, j)`. -/
lemma diffuse_matter_apply (n : ℕ) (ux uy : ℕ → ℝ) (dt : ℝ)
    (st : (ℕ → ℝ) × (ℕ → ℝ)) (i j : ℕ) (hi : i < n) (hj : j < n) :
    (diffuse_matter n ux uy dt st).1 (i + n * j) = advectCell n ux uy st.2 dt i j := by
  unfold diffuse_matter
  rw [diffuse_fold_split n ux uy dt (cells n) st]
  exact foldl_update_mem (fun c => c.1 + n * c.2)
    (fun c => advectCell n ux uy st.2 dt c.1 c.2) (cells n)
    (cells_keys_nodup n) (i, j) (mem_cells.mpr ⟨hi, hj⟩) st.1

/-- The destination values of the velocity self-advection loop at cell
`(i, j)`. -/
lemma solveAdvect_apply (n : ℕ) (dt : ℝ)
    (st : ((ℕ → ℝ) × (ℕ → ℝ)) × ((ℕ → ℝ) × (ℕ → ℝ))) (i j : ℕ)
    (hi : i < n) (hj : j < n) :
    (solveAdvect n dt st).1.1 (i + n * j) =
        advectCell n st.2.1 st.2.2 st.2.1 dt i j ∧
      (solveAdvect n dt st).1.2 (i + n * j) =
        advectCell n st.2.1 st.2.2 st.2.2 dt i j := by
  unfold solveAdvect
  rw [solve_fold_split n dt (cells n) st]
  constructor
  · exact foldl_update_mem (fun c => c.1 + n * c.2)
      (fun c => advectCell n st.2.1 st.2.2 st.2.1 dt c.1 c.2) (cells n)
      (cells_keys_nodup n) (i, j) (mem_cells.mpr ⟨hi, hj⟩) st.1.1
  · exact foldl_update_mem (fun c => c.1 + n * c.2)
      (fun c => advectCell n st.2.1 st.2.2 st.2.2 dt c.1 c.2) (cells n)
      (cells_keys_nodup n) (i, j) (mem_cells.mpr ⟨hi, hj⟩) st.1.2

/-- The folded vertical wavenumber of line 164 of fluids.c:
`y = j<=n/2 ? (fftw_real)j : (fftw_real)j-n;`. -/
def foldY (n j : ℕ) : ℤ := if j ≤ n / 2 then (j : ℤ) else (j : ℤ) - (n : ℤ)

/-- Lines 159-176 of fluids.c, the frequency-domain diffusion-projection
loop.  The padded buffers hold, at flat indices `2c + (n+2)j` and
`2c + 1 + (n+2)j`, the real and imaginary part of the bin with
wavenumbers `(kx, ky) = (c, foldY n j)`; the loop visits every such pair
with `j < n` and `2c <= n` once (`x = 0.5*i` with `i = 2c` even), skips
the pair with `kx*kx + ky*ky = 0`, and otherwise replaces it by the
damped projection orthogonal to the wavevector.  Both elements of a pair
receive the same real coefficient matrix, and each iteration reads
exactly the pair it overwrites, so the loop is modelled pointwise. -/
noncomputable def spectralStep (n : ℕ) (visc dt : ℝ) (VX VY : ℕ → ℝ) :
    (ℕ → ℝ) × (ℕ → ℝ) :=
  (fun p =>
    let j := p / (n + 2)
    let x : ℝ := ((p % (n + 2)) / 2 : ℕ)
    let y : ℝ := ((foldY n j : ℤ) : ℝ)
    let r := x * x + y * y
    if j < n ∧ 2 * ((p % (n + 2)) / 2) ≤ n ∧ r ≠ 0 then
      Real.exp (-(r * dt * visc)) * ((1 - x * x / r) * VX p - x * y / r * VY p)
    else VX p,
   fun p =>
    let j := p / (n + 2)
    let x : ℝ := ((p % (n + 2)) / 2 : ℕ)
    let y : ℝ := ((foldY n j : ℤ) : ℝ)
    let r := x * x + y * y
    if j < n ∧ 2 * ((p % (n + 2)) / 2) ≤ n ∧ r ≠ 0 then
      Real.exp (-(r * dt * visc)) * (-(y * x / r) * VX p + (1 - y * y / r) * VY p)
    else VY p)

/-- Recover the row index of a padded flat index `i + (n+2)*j`, `i < n+2`. -/
lemma pad_div (n i j : ℕ) (hi : i < n + 2) : (i + (n + 2) * j) / (n + 2) = j := by
  rw [Nat.add_mul_div_left _ _ (by omega : 0 < n + 2), Nat.div_eq_of_lt hi, Nat.zero_add]

/-- Recover the column index of a padded flat index `i + (n+2)*j`, `i < n+2`. -/
lemma pad_mod (n i j : ℕ) (hi : i < n + 2) : (i + (n + 2) * j) % (n + 2) = i := by
  rw [Nat.add_mul_mod_self_left, Nat.mod_eq_of_lt hi]

/-- Claim C1: after the Spectral Diffusion-Projection Step (the
frequency-domain loop of `solve`), for every non-DC frequency bin
`(kx, ky) = (c, foldY n j)` with `kx*kx + ky*ky` nonzero, the dot product
`kx*Vx + ky*Vy` of the updated complex velocity coefficient pair with the
wavevector is zero, both for the real part (flat index `2c + (n+2)j`) and
for the imaginary part (flat index `2c + 1 + (n+2)j`) of the bin. -/
theorem projection_orthogonality (n c j : ℕ) (visc dt : ℝ) (VX VY : ℕ → ℝ)
    (hj : j < n) (hc : 2 * c ≤ n)
    (hr : (c : ℤ) * (c : ℤ) + foldY n j * foldY n j ≠ 0) :
    (c : ℝ) * (spectralStep n visc dt VX VY).1 (2 * c + (n + 2) * j) +
        ((foldY n j : ℤ) : ℝ) * (spectralStep n visc dt VX VY).2 (2 * c + (n + 2) * j) = 0 ∧
      (c : ℝ) * (spectralStep n visc dt VX VY).1 (2 * c + 1 + (n + 2) * j) +
        ((foldY n j : ℤ) : ℝ) * (spectralStep n visc dt VX VY).2 (2 * c + 1 + (n + 2) * j) = 0 := by
  have hd0 : (2 * c + (n + 2) * j) / (n + 2) = j := pad_div n (2 * c) j (by omega)
  have hm0 : (2 * c + (n + 2) * j) % (n + 2) = 2 * c := pad_mod n (2 * c) j (by omega)
  have hd1 : (2 * c + 1 + (n + 2) * j) / (n + 2) = j := pad_div n (2 * c + 1) j (by omega)
  have hm1 : (2 * c + 1 + (n + 2) * j) % (n + 2) = 2 * c + 1 := pad_mod n (2 * c + 1) j (by omega)
  have hc0 : 2 * c / 2 = c := by omega
  have hc1 : (2 * c + 1) / 2 = c := by omega
  have hR : ((c : ℝ)) * (c : ℝ) + ((foldY n j : ℤ) : ℝ) * ((foldY n j : ℤ) : ℝ) ≠ 0 := by
    intro hzero
    apply hr
    have : (((c : ℤ) * (c : ℤ) + foldY n j * foldY n j : ℤ) : ℝ) = 0 := by
      push_cast
      linarith
    exact_mod_cast this
  simp only [spectralStep, hd0, hm0, hd1, hm1, hc0, hc1]
  constructor
  · rw [if_pos ⟨hj, (by omega : 2 * c ≤ n), hR⟩, if_pos ⟨hj, (by omega : 2 * c ≤ n), hR⟩]
    field_simp
    ring
  · rw [if_pos ⟨hj, (by omega : 2 * c ≤ n), hR⟩, if_pos ⟨hj, (by omega : 2 * c ≤ n), hR⟩]
    field_simp
    ring

/-- Witness for C1: the bin `(kx, ky) = (1, 0)` of a 2 x 2 grid, with the
hypotheses discharged at this concrete input. -/
theorem projection_orthogonality_witness :
    (0 < 2 ∧ 2 * 1 ≤ 2 ∧ (1 : ℤ) * (1 : ℤ) + foldY 2 0 * foldY 2 0 ≠ 0) ∧
      ((1 : ℝ) * (spectralStep 2 1 1 (fun _ => 1) (fun _ => 1)).1 (2 * 1 + (2 + 2) * 0) +
          ((foldY 2 0 : ℤ) : ℝ) *
            (spectralStep 2 1 1 (fun _ => 1) (fun _ => 1)).2 (2 * 1 + (2 + 2) * 0) = 0 ∧
        (1 : ℝ) * (spectralStep 2 1 1 (fun _ => 1) (fun _ => 1)).1 (2 * 1 + 1 + (2 + 2) * 0) +
          ((foldY 2 0 : ℤ) : ℝ) *
            (spectralStep 2 1 1 (fun _ => 1) (fun _ => 1)).2 (2 * 1 + 1 + (2 + 2) * 0) = 0) :=
  ⟨⟨by decide, by decide, by decide⟩,
    by
      have h := projection_orthogonality 2 1 0 1 1 (fun _ => 1) (fun _ => 1)
        (by decide) (by decide) (by decide)
      exact_mod_cast h⟩

/-- Modelled from the spec: the primitive n-th root of unity underlying
the external 2D Fourier transform pair (the transform itself is an
external FFTW collaborator, out of scope of the source). -/
noncomputable def omegaN (n : ℕ) : ℂ := Complex.exp (2 * Real.pi * Complex.I / n)

/-- Modelled from the spec: the forward real-to-complex 2D transform of
an n x n real field, at wavenumbers `(c, j)`; bin `(0, 0)` is the sum of
the field. -/
noncomputable def spectrum (n : ℕ) (v : ℕ → ℕ → ℝ) (c j : ℕ) : ℂ :=
  ∑ a ∈ Finset.range n, ∑ b ∈ Finset.range n,
    (v a b : ℂ) * (starRingEnd ℂ) (omegaN n ^ (c * a + j * b))

/-- Modelled from the spec: the packed in-place layout the transform
leaves in the padded buffer, real part of bin `(c, j)` at flat index
`2c + (n+2)j` and imaginary part at `2c + 1 + (n+2)j`. -/
noncomputable def packedFwd (n : ℕ) (v : ℕ → ℕ → ℝ) : ℕ → ℝ := fun p =>
  if p % (n + 2) % 2 = 0 then (spectrum n v ((p % (n + 2)) / 2) (p / (n + 2))).re
  else (spectrum n v ((p % (n + 2)) / 2) (p / (n + 2))).im

/-- The complex bin `(c, j)` reassembled from a packed real buffer. -/
noncomputable def packedBin (n : ℕ) (B : ℕ → ℝ) (c j : ℕ) : ℂ :=
  ((B (2 * c + (n + 2) * j) : ℝ) : ℂ) + ((B (2 * c + 1 + (n + 2) * j) : ℝ) : ℂ) * Complex.I

/-- Modelled from the spec: the Hermitian extension by which the inverse
complex-to-real transform reads the half spectrum. -/
noncomputable def hermExt (n : ℕ) (S : ℕ → ℕ → ℂ) (kx ky : ℕ) : ℂ :=
  if kx ≤ n / 2 then S kx ky else (starRingEnd ℂ) (S (n - kx) ((n - ky) % n))

/-- Modelled from the spec: the unnormalized inverse 2D transform of the
extended spectrum, whose output the source divides by `n*n`. -/
noncomputable def invTransform (n : ℕ) (S : ℕ → ℕ → ℂ) (a b : ℕ) : ℂ :=
  ∑ kx ∈ Finset.range n, ∑ ky ∈ Finset.range n,
    hermExt n S kx ky * omegaN n ^ (kx * a + ky * b)

/-- The full Spectral Diffusion-Projection Step of `solve`
(lines 156-184): forward transform of both velocity components, the
frequency-domain loop `spectralStep`, inverse transform, and division by
`n*n` (the normalization `f = 1.0/(n*n)`). -/
noncomputable def spectralPipeline (n : ℕ) (visc dt : ℝ) (vX vY : ℕ → ℕ → ℝ) :
    (ℕ → ℕ → ℝ) × (ℕ → ℕ → ℝ) :=
  (fun a b => (1 / ((n : ℝ) * n)) *
      (invTransform n
        (packedBin n (spectralStep n visc dt (packedFwd n vX) (packedFwd n vY)).1) a b).re,
   fun a b => (1 / ((n : ℝ) * n)) *
      (invTransform n
        (packedBin n (spectralStep n visc dt (packedFwd n vX) (packedFwd n vY)).2) a b).re)

/-- The mean of an n x n field. -/
noncomputable def meanGrid (n : ℕ) (g : ℕ → ℕ → ℝ) : ℝ :=
  (∑ a ∈ Finset.range n, ∑ b ∈ Finset.range n, g a b) / ((n : ℝ) * n)

/-- Geometric sum of the powers of a primitive root: only the zero
wavenumber survives. -/
lemma rootSum (n : ℕ) (hn : 0 < n) (k : ℕ) (hk : k < n) :
    ∑ a ∈ Finset.range n, omegaN n ^ (k * a) = if k = 0 then (n : ℂ) else 0 := by
  rcases Nat.eq_zero_or_pos k with hk0 | hkpos
  · subst hk0
    simp
  · rw [if_neg hkpos.ne']
    have hprim : IsPrimitiveRoot (omegaN n) n := Complex.isPrimitiveRoot_exp n hn.ne'
    have hne : omegaN n ^ k ≠ 1 := hprim.pow_ne_one_of_pos_of_lt hkpos hk
    have hroot : (omegaN n ^ k) ^ n = 1 := by
      rw [pow_right_comm, hprim.pow_eq_one, one_pow]
    calc ∑ a ∈ Finset.range n, omegaN n ^ (k * a)
        = ∑ a ∈ Finset.range n, (omegaN n ^ k) ^ a := by
          apply Finset.sum_congr rfl
          intro a _
          rw [pow_mul]
      _ = ((omegaN n ^ k) ^ n - 1) / (omegaN n ^ k - 1) := geom_sum_eq hne n
      _ = 0 := by rw [hroot, sub_self, zero_div]

/-- Summing the unnormalized inverse transform over the whole grid
collapses to `n*n` times the DC bin. -/
lemma sum_invTransform (n : ℕ) (hn : 0 < n) (S : ℕ → ℕ → ℂ) :
    ∑ a ∈ Finset.range n, ∑ b ∈ Finset.range n, invTransform n S a b
      = (n : ℂ) * ((n : ℂ) * hermExt n S 0 0) := by
  have hb : ∀ a ∈ Finset.range n,
      ∑ b ∈ Finset.range n, invTransform n S a b
        = ∑ kx ∈ Finset.range n, hermExt n S kx 0 * omegaN n ^ (kx * a) * (n : ℂ) := by
    intro a _
    unfold invTransform
    rw [Finset.sum_comm]
    apply Finset.sum_congr rfl
    intro kx _
    rw [Finset.sum_comm]
    have hky : ∀ ky ∈ Finset.range n,
        ∑ b ∈ Finset.range n, hermExt n S kx ky * omegaN n ^ (kx * a + ky * b)
          = hermExt n S kx ky * omegaN n ^ (kx * a) * (if ky = 0 then (n : ℂ) else 0) := by
      intro ky hkymem
      have hsplit : ∀ b, hermExt n S kx ky * omegaN n ^ (kx * a + ky * b)
          = hermExt n S kx ky * omegaN n ^ (kx * a) * omegaN n ^ (ky * b) := by
        intro b
        rw [pow_add]
        ring
      rw [Finset.sum_congr rfl (fun b _ => hsplit b), ← Finset.mul_sum,
        rootSum n hn ky (Finset.mem_range.mp hkymem)]
    rw [Finset.sum_congr rfl hky,
      Finset.sum_eq_single_of_mem 0 (Finset.mem_range.mpr hn)
        (fun ky _ hky0 => by rw [if_neg hky0, mul_zero]),
      if_pos rfl]
  rw [Finset.sum_congr rfl hb, Finset.sum_comm]
  have hkx : ∀ kx ∈ Finset.range n,
      ∑ a ∈ Finset.range n, hermExt n S kx 0 * omegaN n ^ (kx * a) * (n : ℂ)
        = hermExt n S kx 0 * (n : ℂ) * (if kx = 0 then (n : ℂ) else 0) := by
    intro kx hkxmem
    have hsplit : ∀ a, hermExt n S kx 0 * omegaN n ^ (kx * a) * (n : ℂ)
        = hermExt n S kx 0 * (n : ℂ) * omegaN n ^ (kx * a) := by
      intro a
      ring
    rw [Finset.sum_congr rfl (fun a _ => hsplit a), ← Finset.mul_sum,
      rootSum n hn kx (Finset.mem_range.mp hkxmem)]
  rw [Finset.sum_congr rfl hkx,
    Finset.sum_eq_single_of_mem 0 (Finset.mem_range.mpr hn)
      (fun kx _ hkx0 => by rw [if_neg hkx0, mul_zero]),
    if_pos rfl]
  ring

/-- The DC bin of the forward transform is the sum of the field. -/
lemma spectrum_zero (n : ℕ) (v : ℕ → ℕ → ℝ) :
    spectrum n v 0 0
      = ((∑ a ∈ Finset.range n, ∑ b ∈ Finset.range n, v a b : ℝ) : ℂ) := by
  unfold spectrum
  push_cast
  apply Finset.sum_congr rfl
  intro a _
  apply Finset.sum_congr rfl
  intro b _
  simp

/-- The frequency-domain loop leaves the DC pair (flat indices 0 and 1,
the bin with `kx = ky = 0` and `r = 0`) untouched, in both components. -/
lemma spectralStep_dc (n : ℕ) (visc dt : ℝ) (VX VY : ℕ → ℝ) :
    (spectralStep n visc dt VX VY).1 0 = VX 0 ∧
      (spectralStep n visc dt VX VY).1 1 = VX 1 ∧
      (spectralStep n visc dt VX VY).2 0 = VY 0 ∧
      (spectralStep n visc dt VX VY).2 1 = VY 1 := by
  have h1m : 1 % (n + 2) = 1 := Nat.mod_eq_of_lt (by omega)
  have h1d : 1 / (n + 2) = 0 := Nat.div_eq_of_lt (by omega)
  have hfy : foldY n 0 = 0 := by
    unfold foldY
    rw [if_pos (Nat.zero_le _)]
    rfl
  refine ⟨?_, ?_, ?_, ?_⟩ <;>
    simp [spectralStep, h1m, h1d, hfy]

/-- Reassembling the DC pair of the packed forward transform recovers
the DC bin of the spectrum. -/
lemma packedBin_fwd_dc (n : ℕ) (v : ℕ → ℕ → ℝ) (B : ℕ → ℝ)
    (h0 : B 0 = packedFwd n v 0) (h1 : B 1 = packedFwd n v 1) :
    packedBin n B 0 0 = spectrum n v 0 0 := by
  unfold packedBin
  have hi0 : 2 * 0 + (n + 2) * 0 = 0 := by ring
  have hi1 : 2 * 0 + 1 + (n + 2) * 0 = 1 := by ring
  rw [hi0, hi1, h0, h1]
  unfold packedFwd
  have h1m : 1 % (n + 2) = 1 := Nat.mod_eq_of_lt (by omega)
  have h1d : 1 / (n + 2) = 0 := Nat.div_eq_of_lt (by omega)
  simp [h1m, h1d]

/-- The grid mean of the normalized inverse transform of any packed
buffer whose DC pair agrees with the packed forward transform of `v`
equals the grid mean of `v`. -/
lemma mean_inv_eq (n : ℕ) (hn : 0 < n) (B : ℕ → ℝ) (v : ℕ → ℕ → ℝ)
    (h0 : B 0 = packedFwd n v 0) (h1 : B 1 = packedFwd n v 1) :
    meanGrid n (fun a b =>
        (1 / ((n : ℝ) * n)) * (invTransform n (packedBin n B) a b).re) =
      meanGrid n v := by
  unfold meanGrid
  have hsum : ∑ a ∈ Finset.range n, ∑ b ∈ Finset.range n,
      (1 / ((n : ℝ) * n)) * (invTransform n (packedBin n B) a b).re
        = (1 / ((n : ℝ) * n)) * ∑ a ∈ Finset.range n, ∑ b ∈ Finset.range n,
            (invTransform n (packedBin n B) a b).re := by
    rw [Finset.mul_sum]
    apply Finset.sum_congr rfl
    intro a _
    rw [Finset.mul_sum]
  rw [hsum]
  have hre : ∑ a ∈ Finset.range n, ∑ b ∈ Finset.range n,
      (invTransform n (packedBin n B) a b).re
        = ((∑ a ∈ Finset.range n, ∑ b ∈ Finset.range n,
            invTransform n (packedBin n B) a b).re) := by
    rw [Complex.re_sum]
    apply Finset.sum_congr rfl
    intro a _
    rw [Complex.re_sum]
  rw [hre, sum_invTransform n hn]
  have hdc : hermExt n (packedBin n B) 0 0 = packedBin n B 0 0 := by
    unfold hermExt
    rw [if_pos (Nat.zero_le _)]
  rw [hdc, packedBin_fwd_dc n v B h0 h1, spectrum_zero n v]
  have hcast : ((n : ℂ) * ((n : ℂ) *
      ((∑ a ∈ Finset.range n, ∑ b ∈ Finset.range n, v a b : ℝ) : ℂ))).re
        = (n : ℝ) * ((n : ℝ) * ∑ a ∈ Finset.range n, ∑ b ∈ Finset.range n, v a b) := by
    have : ((n : ℂ) * ((n : ℂ) *
        ((∑ a ∈ Finset.range n, ∑ b ∈ Finset.range n, v a b : ℝ) : ℂ)))
          = (((n : ℝ) * ((n : ℝ) *
            ∑ a ∈ Finset.range n, ∑ b ∈ Finset.range n, v a b) : ℝ) : ℂ) := by
      push_cast
      ring
    rw [this, Complex.ofReal_re]
  rw [hcast]
  have hne : ((n : ℝ)) ≠ 0 := by exact_mod_cast hn.ne'
  field_simp
  ring

/-- Claim C2: the zero-frequency (DC) bin is skipped by the frequency
loop, so for every velocity field, viscosity and time step the mean
velocity over the whole grid is unchanged by the full spectral step
(forward transform, per-bin update, inverse transform, division by
`n*n`), in both components. -/
theorem dc_preservation (n : ℕ) (hn : 0 < n) (visc dt : ℝ) (vX vY : ℕ → ℕ → ℝ) :
    meanGrid n (spectralPipeline n visc dt vX vY).1 = meanGrid n vX ∧
      meanGrid n (spectralPipeline n visc dt vX vY).2 = meanGrid n vY := by
  have hX := spectralStep_dc n visc dt (packedFwd n vX) (packedFwd n vY)
  unfold spectralPipeline
  constructor
  · exact mean_inv_eq n hn _ vX hX.1 hX.2.1
  · exact mean_inv_eq n hn _ vY hX.2.2.1 hX.2.2.2

/-- Witness for C2 at the concrete grid size 1 and concrete fields. -/
theorem dc_preservation_witness :
    0 < 1 ∧
      (meanGrid 1 (spectralPipeline 1 1 1 (fun _ _ => 2) (fun _ _ => 3)).1 =
          meanGrid 1 (fun _ _ => 2) ∧
        meanGrid 1 (spectralPipeline 1 1 1 (fun _ _ => 2) (fun _ _ => 3)).2 =
          meanGrid 1 (fun _ _ => 3)) :=
  ⟨by decide, dc_preservation 1 (by decide) 1 1 (fun _ _ => 2) (fun _ _ => 3)⟩

/-- Claim C3: for every cell `(i, j)`, the advection step writes into the
destination buffer the bilinear interpolation of the four wrapped corner
cells of the source buffer with weights `(1-s)(1-t), s(1-t), (1-s)t, s*t`
in reading order (base, +x, +y, +x+y), where `(s, t)` is the fractional
part of the backtraced position; in the velocity loop the same traced
position is shared by both components. -/
theorem advection_bilinear (n : ℕ) (hn : 0 < n)
    (ux uy vx vy vx0 vy0 rho rho0 : ℕ → ℝ) (dt : ℝ) (i j : ℕ)
    (hi : i < n) (hj : j < n) :
    (diffuse_matter n ux uy dt (rho, rho0)).1 (i + n * j) =
        specInterp n rho0 (tracedPos n ux uy dt i j).1 (tracedPos n ux uy dt i j).2 ∧
      (solveAdvect n dt ((vx, vy), (vx0, vy0))).1.1 (i + n * j) =
        specInterp n vx0 (tracedPos n vx0 vy0 dt i j).1 (tracedPos n vx0 vy0 dt i j).2 ∧
      (solveAdvect n dt ((vx, vy), (vx0, vy0))).1.2 (i + n * j) =
        specInterp n vy0 (tracedPos n vx0 vy0 dt i j).1 (tracedPos n vx0 vy0 dt i j).2 := by
  have h1 := diffuse_matter_apply n ux uy dt (rho, rho0) i j hi hj
  have h2 := solveAdvect_apply n dt ((vx, vy), (vx0, vy0)) i j hi hj
  refine ⟨?_, ?_, ?_⟩
  · rw [h1]
    exact codeInterp_eq_specInterp n hn rho0 _ _
  · rw [h2.1]
    exact codeInterp_eq_specInterp n hn vx0 _ _
  · rw [h2.2]
    exact codeInterp_eq_specInterp n hn vy0 _ _

/-- Witness for C3 at grid size 1, cell (0, 0) and concrete buffers. -/
theorem advection_bilinear_witness :
    (0 < 1 ∧ 0 < 1) ∧
      ((diffuse_matter 1 (fun _ => 0) (fun _ => 0) 0
          ((fun _ => 0), (fun _ => 5))).1 (0 + 1 * 0) =
        specInterp 1 (fun _ => 5)
          (tracedPos 1 (fun _ => 0) (fun _ => 0) 0 0 0).1
          (tracedPos 1 (fun _ => 0) (fun _ => 0) 0 0 0).2 ∧
      (solveAdvect 1 0 (((fun _ => 0), fun _ => 0),
          ((fun _ => 1), fun _ => 2))).1.1 (0 + 1 * 0) =
        specInterp 1 (fun _ => 1)
          (tracedPos 1 (fun _ => 1) (fun _ => 2) 0 0 0).1
          (tracedPos 1 (fun _ => 1) (fun _ => 2) 0 0 0).2 ∧
      (solveAdvect 1 0 (((fun _ => 0), fun _ => 0),
          ((fun _ => 1), fun _ => 2))).1.2 (0 + 1 * 0) =
        specInterp 1 (fun _ => 2)
          (tracedPos 1 (fun _ => 1) (fun _ => 2) 0 0 0).1
          (tracedPos 1 (fun _ => 1) (fun _ => 2) 0 0 0).2) :=
  ⟨⟨by decide, by decide⟩,
    advection_bilinear 1 (by decide) (fun _ => 0) (fun _ => 0) (fun _ => 0)
      (fun _ => 0) (fun _ => 1) (fun _ => 2) (fun _ => 0) (fun _ => 5) 0 0 0
      (by decide) (by decide)⟩

/-- Claim C5: the advection is pure with respect to its source-previous
input: `diffuse_matter` leaves `rho0` untouched and the velocity
self-advection loop leaves the snapshot pair `(vx0, vy0)` untouched, for
every velocity field, source field and time step. -/
theorem advection_pure (n : ℕ) (ux uy vx vy vx0 vy0 rho rho0 : ℕ → ℝ) (dt : ℝ) :
    (diffuse_matter n ux uy dt (rho, rho0)).2 = rho0 ∧
      (solveAdvect n dt ((vx, vy), (vx0, vy0))).2 = (vx0, vy0) := by
  constructor
  · unfold diffuse_matter
    rw [diffuse_fold_split n ux uy dt (cells n) (rho, rho0)]
  · unfold solveAdvect
    rw [solve_fold_split n dt (cells n) ((vx, vy), (vx0, vy0))]

/-- Claim C9: advection preserves constant fields, because the four
bilinear weights sum to one for every fractional offset. -/
theorem advection_constant (n : ℕ) (ux uy rho : ℕ → ℝ)
    (dt c : ℝ) (rho0 : ℕ → ℝ) (hconst : ∀ p, rho0 p = c) (i j : ℕ)
    (hi : i < n) (hj : j < n) :
    (diffuse_matter n ux uy dt (rho, rho0)).1 (i + n * j) = c := by
  rw [diffuse_matter_apply n ux uy dt (rho, rho0) i j hi hj]
  have hsnd : ((fun q : (ℕ → ℝ) × (ℕ → ℝ) => q.2) (rho, rho0)) = rho0 := rfl
  unfold advectCell codeInterp
  simp only [hsnd, hconst]
  ring

/-- Witness for C9 at grid size 1 with the constant source 7. -/
theorem advection_constant_witness :
    (0 < 1 ∧ (∀ p : ℕ, (fun _ : ℕ => (7 : ℝ)) p = 7)) ∧
      (diffuse_matter 1 (fun _ => 3) (fun _ => 4) 2
        ((fun _ => 0), (fun _ => 7))).1 (0 + 1 * 0) = 7 :=
  ⟨⟨by decide, fun _ => rfl⟩,
    advection_constant 1 (fun _ => 3) (fun _ => 4) (fun _ => 0) 2 7
      (fun _ => 7) (fun _ => rfl) 0 0 (by decide) (by decide)⟩

/-- Counterexample for C4: the advector can backtrace onto a negative
integer grid line (here position `-2`, reached at grid size 1 from cell
`(0,0)` with `dt = 1` and horizontal velocity 2), and there the fractional
offset computed through `clamp` is exactly 1, not an element of `[0,1)`. -/
theorem offset_range_cex :
    (tracedPos 1 (fun _ => 2) (fun _ => 0) 1 0 0).1 = -2 ∧
      fracOffset (-2) = 1 ∧ ¬ fracOffset (-2) < 1 := by
  have hval : fracOffset (-2) = 1 := by
    have hcast : ((-2 : ℝ)) = (((-2 : ℤ)) : ℝ) := by norm_num
    rw [hcast, fracOffset_neg_int (by decide)]
  refine ⟨?_, hval, ?_⟩
  · unfold tracedPos
    norm_num
  · rw [hval]
    exact lt_irrefl 1

/-- Claim C4 amended: the fractional offsets produced by the clamp
decomposition lie in `[0,1]`; the offset equals 1 exactly when the traced
coordinate is a negative integer (there the interpolation degenerates to
a direct lookup of the wrapped +1 neighbor), and in every other case it
is the fractional part, hence in `[0,1)`, with offset exactly 0 on
nonnegative integer grid lines. -/
theorem offset_range_amended (x : ℝ) :
    0 ≤ fracOffset x ∧ fracOffset x ≤ 1 ∧
      (fracOffset x = 1 ↔ x < 0 ∧ ∃ m : ℤ, x = (m : ℝ)) ∧
      ((0 ≤ x ∨ Int.fract x ≠ 0) → fracOffset x = Int.fract x) := by
  by_cases h : 0 ≤ x ∨ Int.fract x ≠ 0
  · have hfo : fracOffset x = Int.fract x := fracOffset_eq_fract h
    have hb0 : 0 ≤ fracOffset x := by rw [hfo]; exact Int.fract_nonneg x
    have hb1 : fracOffset x < 1 := by rw [hfo]; exact Int.fract_lt_one x
    refine ⟨hb0, le_of_lt hb1, ?_, fun _ => hfo⟩
    constructor
    · intro h1
      exact absurd h1 (ne_of_lt hb1)
    · rintro ⟨hx, m, hm⟩
      exfalso
      have hfz : Int.fract x = 0 := by
        rw [hm]
        exact Int.fract_intCast m
      rcases h with h | h
      · exact absurd hx (not_lt.mpr h)
      · exact h hfz
  · push_neg at h
    obtain ⟨hx, hfz⟩ := h
    have hfl : ((⌊x⌋ : ℝ)) = x := by
      have hself := Int.self_sub_floor x
      rw [hfz] at hself
      linarith
    have hm : ⌊x⌋ < 0 := by
      by_contra hc
      push_neg at hc
      have hge : (0 : ℝ) ≤ (⌊x⌋ : ℝ) := by exact_mod_cast hc
      rw [hfl] at hge
      exact absurd hge (not_le.mpr hx)
    have hone : fracOffset x = 1 := by
      conv_lhs => rw [← hfl]
      exact fracOffset_neg_int hm
    refine ⟨by rw [hone]; norm_num, le_of_eq hone, ?_, ?_⟩
    · exact iff_of_true hone ⟨hx, ⟨⌊x⌋, hfl.symm⟩⟩
    · intro hcontra
      rcases hcontra with hcontra | hcontra
      · exact absurd hcontra (not_le.mpr hx)
      · exact absurd hfz hcontra

/-- Witness for the amended C4, instantiated at the counterexample
coordinate `-2`. -/
theorem offset_range_amended_witness :
    0 ≤ fracOffset (-2) ∧ fracOffset (-2) ≤ 1 ∧
      (fracOffset (-2) = 1 ↔ (-2 : ℝ) < 0 ∧ ∃ m : ℤ, (-2 : ℝ) = (m : ℝ)) ∧
      ((0 ≤ (-2 : ℝ) ∨ Int.fract (-2 : ℝ) ≠ 0) → fracOffset (-2) = Int.fract (-2 : ℝ)) :=
  offset_range_amended (-2)

/-- Claim C10: every wrapped base index produced from a clamped traced
coordinate is in `[0, n-1]` (already at the level of the signed wrap),
its incremented neighbor modulo `n` as well, and hence all four corner
lookups of the advection loops address flat indices inside the n x n
buffer. -/
theorem advection_index_bounds (n : ℕ) (hn : 0 < n) (x y : ℝ) :
    0 ≤ wrapZ n (clamp x) ∧ wrapZ n (clamp x) < n ∧
      wrapIdx n (clamp x) < n ∧ (wrapIdx n (clamp x) + 1) % n < n ∧
      wrapIdx n (clamp x) + n * wrapIdx n (clamp y) < n * n ∧
      (wrapIdx n (clamp x) + 1) % n + n * wrapIdx n (clamp y) < n * n ∧
      wrapIdx n (clamp x) + n * ((wrapIdx n (clamp y) + 1) % n) < n * n ∧
      (wrapIdx n (clamp x) + 1) % n + n * ((wrapIdx n (clamp y) + 1) % n) < n * n := by
  have hwx := wrapIdx_lt n hn (clamp x)
  have hwy := wrapIdx_lt n hn (clamp y)
  have hsx : (wrapIdx n (clamp x) + 1) % n < n := Nat.mod_lt _ hn
  have hsy : (wrapIdx n (clamp y) + 1) % n < n := Nat.mod_lt _ hn
  have key : ∀ a b : ℕ, a < n → b < n → a + n * b < n * n := by
    intro a b ha hb
    calc a + n * b < n + n * b := by omega
      _ = n * (b + 1) := by ring
      _ ≤ n * n := Nat.mul_le_mul_left n (by omega)
  exact ⟨wrapZ_nonneg n hn _, wrapZ_lt n hn _, hwx, hsx,
    key _ _ hwx hwy, key _ _ hsx hwy, key _ _ hwx hsy, key _ _ hsx hsy⟩

/-- Witness for C10 at grid size 3 and traced coordinates `-7.5` and `2.25`. -/
theorem advection_index_bounds_witness :
    0 < 3 ∧
      (0 ≤ wrapZ 3 (clamp (-7.5)) ∧ wrapZ 3 (clamp (-7.5)) < 3 ∧
        wrapIdx 3 (clamp (-7.5)) < 3 ∧ (wrapIdx 3 (clamp (-7.5)) + 1) % 3 < 3 ∧
        wrapIdx 3 (clamp (-7.5)) + 3 * wrapIdx 3 (clamp 2.25) < 3 * 3 ∧
        (wrapIdx 3 (clamp (-7.5)) + 1) % 3 + 3 * wrapIdx 3 (clamp 2.25) < 3 * 3 ∧
        wrapIdx 3 (clamp (-7.5)) + 3 * ((wrapIdx 3 (clamp 2.25) + 1) % 3) < 3 * 3 ∧
        (wrapIdx 3 (clamp (-7.5)) + 1) % 3 + 3 * ((wrapIdx 3 (clamp 2.25) + 1) % 3) < 3 * 3) :=
  ⟨by decide, advection_index_bounds 3 (by decide) (-7.5) 2.25⟩

/-- The mutable global state of the simulation: the pause flag, the two
runtime parameters and the eight field buffers of fluids.c
(lines 18-24 and 42). -/
structure SimState where
  frozen : ℕ
  dt : ℝ
  visc : ℝ
  vx : ℕ → ℝ
  vy : ℕ → ℝ
  vx0 : ℕ → ℝ
  vy0 : ℕ → ℝ
  fx : ℕ → ℝ
  fy : ℕ → ℝ
  rho : ℕ → ℝ
  rho0 : ℕ → ℝ

/-- Lines 214-225 of fluids.c, `set_forces`: for every cell `i < DIM*DIM`,
`rho0[i] = 0.995*rho[i]; fx[i] *= 0.85; fy[i] *= 0.85; vx0[i] = fx[i];
vy0[i] = fy[i];`.  Each iteration touches only its own cell, so the loop
is modelled pointwise; the copies into the velocity scratch read the
already decayed forces. -/
noncomputable def set_forces (st : SimState) : SimState :=
  { st with
    rho0 := fun p => if p < DIM * DIM then 0.995 * st.rho p else st.rho0 p
    fx := fun p => if p < DIM * DIM then st.fx p * 0.85 else st.fx p
    fy := fun p => if p < DIM * DIM then st.fy p * 0.85 else st.fy p
    vx0 := fun p => if p < DIM * DIM then st.fx p * 0.85 else st.vx0 p
    vy0 := fun p => if p < DIM * DIM then st.fy p * 0.85 else st.vy0 p }

/-- Lines 129-185 of fluids.c, `solve`: force integration and snapshot
(lines 134-135), velocity self-advection (137-150), copy into the padded
layout (152-154), forward transforms, the frequency loop, inverse
transforms, and the final normalization by `1/(n*n)` written back into
the compact layout (181-184).  Returns `((vx, vy), (vx0, vy0))`. -/
noncomputable def solve (n : ℕ) (vx vy vx0 vy0 : ℕ → ℝ) (visc dt : ℝ) :
    ((ℕ → ℝ) × (ℕ → ℝ)) × ((ℕ → ℝ) × (ℕ → ℝ)) :=
  let vx1 : ℕ → ℝ := fun p => if p < n * n then vx p + dt * vx0 p else vx p
  let vy1 : ℕ → ℝ := fun p => if p < n * n then vy p + dt * vy0 p else vy p
  let vx0a : ℕ → ℝ := fun p => if p < n * n then vx p + dt * vx0 p else vx0 p
  let vy0a : ℕ → ℝ := fun p => if p < n * n then vy p + dt * vy0 p else vy0 p
  let adv := solveAdvect n dt ((vx1, vy1), (vx0a, vy0a))
  let vx0b : ℕ → ℝ := fun p =>
    if p % (n + 2) < n ∧ p / (n + 2) < n then adv.1.1 (p % (n + 2) + n * (p / (n + 2)))
    else adv.2.1 p
  let vy0b : ℕ → ℝ := fun p =>
    if p % (n + 2) < n ∧ p / (n + 2) < n then adv.1.2 (p % (n + 2) + n * (p / (n + 2)))
    else adv.2.2 p
  let px := packedFwd n (fun a b => vx0b (a + (n + 2) * b))
  let py := packedFwd n (fun a b => vy0b (a + (n + 2) * b))
  let sp := spectralStep n visc dt px py
  let vx0c : ℕ → ℝ := fun p =>
    if p % (n + 2) < n ∧ p / (n + 2) < n then
      (invTransform n (packedBin n sp.1) (p % (n + 2)) (p / (n + 2))).re
    else sp.1 p
  let vy0c : ℕ → ℝ := fun p =>
    if p % (n + 2) < n ∧ p / (n + 2) < n then
      (invTransform n (packedBin n sp.2) (p % (n + 2)) (p / (n + 2))).re
    else sp.2 p
  let vxf : ℕ → ℝ := fun p =>
    if p < n * n then (1 / ((n : ℝ) * n)) * vx0c (p % n + (n + 2) * (p / n)) else adv.1.1 p
  let vyf : ℕ → ℝ := fun p =>
    if p < n * n then (1 / ((n : ℝ) * n)) * vy0c (p % n + (n + 2) * (p / n)) else adv.1.2 p
  ((vxf, vyf), (vx0c, vy0c))

/-- Lines 233-242 of fluids.c, `do_one_simulation_step`: when not frozen,
run `set_forces`, `solve` and `diffuse_matter` in sequence (the final
`glutPostRedisplay` only signals the external renderer and touches no
simulation state); when frozen, do nothing. -/
noncomputable def do_one_simulation_step (st : SimState) : SimState :=
  if st.frozen = 0 then
    let st1 := set_forces st
    let sv := solve DIM st1.vx st1.vy st1.vx0 st1.vy0 st1.visc st1.dt
    let dm := diffuse_matter DIM sv.1.1 sv.1.2 st1.dt (st1.rho, st1.rho0)
    { st1 with
      vx := sv.1.1, vy := sv.1.2, vx0 := sv.2.1, vy0 := sv.2.2,
      rho := dm.1, rho0 := dm.2 }
  else st

/-- Lines 51-70 of fluids.c, `init_simulation`: the velocity buffers are
allocated with the padded extent `n*2*(n/2+1)` and the force and density
buffers with extent `n*n`, but the zeroing loop runs only over
`i < n*n`; beyond that the buffers keep whatever the allocator handed
out, modelled by the arbitrary functions `m...` standing for the
uninitialized malloc contents. -/
def init_simulation (n : ℕ)
    (mvx mvy mvx0 mvy0 mfx mfy mrho mrho0 : ℕ → ℝ) :
    (ℕ → ℝ) × (ℕ → ℝ) × (ℕ → ℝ) × (ℕ → ℝ) × (ℕ → ℝ) × (ℕ → ℝ) × (ℕ → ℝ) × (ℕ → ℝ) :=
  ((fun p => if p < n * n then 0 else mvx p),
   (fun p => if p < n * n then 0 else mvy p),
   (fun p => if p < n * n then 0 else mvx0 p),
   (fun p => if p < n * n then 0 else mvy0 p),
   (fun p => if p < n * n then 0 else mfx p),
   (fun p => if p < n * n then 0 else mfy p),
   (fun p => if p < n * n then 0 else mrho p),
   (fun p => if p < n * n then 0 else mrho0 p))

/-- Claim C6: one call of `set_forces` sets the density scratch to
`0.995` times the density, multiplies both force components by `0.85`,
and copies the decayed forces into the velocity scratch, at every cell of
the grid; in particular density 10 yields scratch 9.95 and force 0.2
yields 0.17, exactly. -/
theorem set_forces_decay (st : SimState) (p : ℕ) (hp : p < DIM * DIM) :
    (set_forces st).rho0 p = 0.995 * st.rho p ∧
      (set_forces st).fx p = st.fx p * 0.85 ∧
      (set_forces st).fy p = st.fy p * 0.85 ∧
      (set_forces st).vx0 p = (set_forces st).fx p ∧
      (set_forces st).vy0 p = (set_forces st).fy p ∧
      (st.rho p = 10 → (set_forces st).rho0 p = 9.95) ∧
      (st.fx p = 0.2 → (set_forces st).fx p = 0.17) ∧
      (st.fy p = 0.2 → (set_forces st).fy p = 0.17) := by
  unfold set_forces
  simp only [if_pos hp, eq_self_iff_true, true_and]
  refine ⟨?_, ?_, ?_⟩ <;> intro h <;> rw [h] <;> norm_num

/-- A concrete state at rest with density 10 and force (0.2, 0.2)
everywhere, used by the witnesses of C6 and C7. -/
noncomputable def restState : SimState :=
  { frozen := 0, dt := 0, visc := 0,
    vx := fun _ => 0, vy := fun _ => 0, vx0 := fun _ => 0, vy0 := fun _ => 0,
    fx := fun _ => 0.2, fy := fun _ => 0.2,
    rho := fun _ => 10, rho0 := fun _ => 0 }

/-- Witness for C6 at cell 0 of the rest state. -/
theorem set_forces_decay_witness :
    0 < DIM * DIM ∧
      ((set_forces restState).rho0 0 = 0.995 * restState.rho 0 ∧
        (set_forces restState).fx 0 = restState.fx 0 * 0.85 ∧
        (set_forces restState).fy 0 = restState.fy 0 * 0.85 ∧
        (set_forces restState).vx0 0 = (set_forces restState).fx 0 ∧
        (set_forces restState).vy0 0 = (set_forces restState).fy 0 ∧
        (restState.rho 0 = 10 → (set_forces restState).rho0 0 = 9.95) ∧
        (restState.fx 0 = 0.2 → (set_forces restState).fx 0 = 0.17) ∧
        (restState.fy 0 = 0.2 → (set_forces restState).fy 0 = 0.17)) :=
  ⟨by decide, set_forces_decay restState 0 (by decide)⟩

/-- Claim C7: when the simulation is paused (`frozen` nonzero), a call of
the step orchestrator `do_one_simulation_step` is a no-op: the whole
state, that is every field buffer and every parameter, is unchanged. -/
theorem frozen_tick_noop (st : SimState) (h : st.frozen ≠ 0) :
    do_one_simulation_step st = st := by
  unfold do_one_simulation_step
  rw [if_neg h]

/-- Witness for C7 at a concrete frozen state. -/
theorem frozen_tick_noop_witness :
    ({ restState with frozen := 1 } : SimState).frozen ≠ 0 ∧
      do_one_simulation_step { restState with frozen := 1 } =
        { restState with frozen := 1 } :=
  ⟨by decide, frozen_tick_noop { restState with frozen := 1 } (by decide)⟩

/-- Concrete instance of `init_simulation` at grid size 2 whose
allocator contents are the constants 1 through 8, one per buffer. -/
def initBufs :
    (ℕ → ℝ) × (ℕ → ℝ) × (ℕ → ℝ) × (ℕ → ℝ) × (ℕ → ℝ) × (ℕ → ℝ) × (ℕ → ℝ) × (ℕ → ℝ) :=
  init_simulation 2 (fun _ => 1) (fun _ => 2) (fun _ => 3) (fun _ => 4)
    (fun _ => 5) (fun _ => 6) (fun _ => 7) (fun _ => 8)

/-- Counterexample for C8: with grid size 2 the velocity buffers have
padded extent `2*2*(2/2+1) = 8`, but `init_simulation` zero-fills only
the first `n*n = 4` elements; if the allocator hands out the constant 1,
element 4 of the first velocity buffer is still 1 after initialization. -/
theorem init_zero_fill_cex :
    2 * 2 * (2 / 2 + 1) = 8 ∧ (4 : ℕ) < 8 ∧
      initBufs.1 4 = 1 ∧ ((1 : ℝ)) ≠ 0 := by
  refine ⟨by norm_num, by norm_num, ?_, by norm_num⟩
  unfold initBufs init_simulation
  norm_num

/-- Claim C8 amended: after `init_simulation n`, the first `n*n` elements
of every one of the eight field buffers are zero (the loop of lines 68-69
covers exactly these); the padded tail of the velocity buffers is left as
allocated. -/
theorem init_zero_fill (n : ℕ)
    (mvx mvy mvx0 mvy0 mfx mfy mrho mrho0 : ℕ → ℝ) (p : ℕ) (hp : p < n * n) :
    (init_simulation n mvx mvy mvx0 mvy0 mfx mfy mrho mrho0).1 p = 0 ∧
      (init_simulation n mvx mvy mvx0 mvy0 mfx mfy mrho mrho0).2.1 p = 0 ∧
      (init_simulation n mvx mvy mvx0 mvy0 mfx mfy mrho mrho0).2.2.1 p = 0 ∧
      (init_simulation n mvx mvy mvx0 mvy0 mfx mfy mrho mrho0).2.2.2.1 p = 0 ∧
      (init_simulation n mvx mvy mvx0 mvy0 mfx mfy mrho mrho0).2.2.2.2.1 p = 0 ∧
      (init_simulation n mvx mvy mvx0 mvy0 mfx mfy mrho mrho0).2.2.2.2.2.1 p = 0 ∧
      (init_simulation n mvx mvy mvx0 mvy0 mfx mfy mrho mrho0).2.2.2.2.2.2.1 p = 0 ∧
      (init_simulation n mvx mvy mvx0 mvy0 mfx mfy mrho mrho0).2.2.2.2.2.2.2 p = 0 := by
  unfold init_simulation
  simp [hp]

/-- Witness for the amended C8 at grid size 2, element 3, allocator
contents constantly 1. -/
theorem init_zero_fill_witness :
    (3 : ℕ) < 2 * 2 ∧
      (initBufs.1 3 = 0 ∧ initBufs.2.1 3 = 0 ∧ initBufs.2.2.1 3 = 0 ∧
        initBufs.2.2.2.1 3 = 0 ∧ initBufs.2.2.2.2.1 3 = 0 ∧
        initBufs.2.2.2.2.2.1 3 = 0 ∧ initBufs.2.2.2.2.2.2.1 3 = 0 ∧
        initBufs.2.2.2.2.2.2.2 3 = 0) :=
  ⟨by decide,
    init_zero_fill 2 (fun _ => 1) (fun _ => 2) (fun _ => 3) (fun _ => 4)
      (fun _ => 5) (fun _ => 6) (fun _ => 7) (fun _ => 8) 3 (by decide)⟩

end Smoke
